import Mathlib

/-!
Verification development for the binned-distribution and mass-conserving
rescaling engine of the dom-sizing notebook, together with the write-endurance
formula of the ssd-endurance-requirements notebook.

Pandas float cells are modelled by the type PF below: a finite cell carries an
exact rational, and the non-finite IEEE values (NaN and the two infinities)
that pandas arithmetic can produce are tracked explicitly, so that the
fillna(0.0) calls and the 0/0 behaviour of the source are reproduced
faithfully.
-/

/-- PF models one pandas float cell: NaN, one of the two infinities, or a
finite value (an exact rational in this embedding). -/
inductive PF
  | nan
  | pinf
  | ninf
  | val (q : ℚ)
  deriving DecidableEq

/-- IEEE-754 addition as performed by pandas elementwise addition. -/
def PF.add : PF → PF → PF
  | .nan, _ => .nan
  | _, .nan => .nan
  | .pinf, .ninf => .nan
  | .ninf, .pinf => .nan
  | .pinf, _ => .pinf
  | _, .pinf => .pinf
  | .ninf, _ => .ninf
  | _, .ninf => .ninf
  | .val a, .val b => .val (a + b)

/-- IEEE-754 multiplication as performed by pandas elementwise multiplication. -/
def PF.mul : PF → PF → PF
  | .nan, _ => .nan
  | _, .nan => .nan
  | .pinf, .pinf => .pinf
  | .pinf, .ninf => .ninf
  | .ninf, .pinf => .ninf
  | .ninf, .ninf => .pinf
  | .pinf, .val q => if 0 < q then .pinf else if q < 0 then .ninf else .nan
  | .val q, .pinf => if 0 < q then .pinf else if q < 0 then .ninf else .nan
  | .ninf, .val q => if 0 < q then .ninf else if q < 0 then .pinf else .nan
  | .val q, .ninf => if 0 < q then .ninf else if q < 0 then .pinf else .nan
  | .val a, .val b => .val (a * b)

/-- IEEE-754 division as performed by pandas and numpy: a nonzero finite value
divided by zero gives a signed infinity and 0/0 gives NaN (numpy emits a
runtime warning but produces the value). -/
def PF.div : PF → PF → PF
  | .nan, _ => .nan
  | _, .nan => .nan
  | .pinf, .pinf => .nan
  | .pinf, .ninf => .nan
  | .ninf, .pinf => .nan
  | .ninf, .ninf => .nan
  | .pinf, .val q => if 0 ≤ q then .pinf else .ninf
  | .ninf, .val q => if 0 ≤ q then .ninf else .pinf
  | .val _, .pinf => .val 0
  | .val _, .ninf => .val 0
  | .val a, .val b =>
      if b = 0 then (if 0 < a then .pinf else if a < 0 then .ninf else .nan)
      else .val (a / b)

/-- Pandas rowwise maximum (DataFrame.max(axis=1)): NaN cells are skipped, so
a NaN operand is an identity unless both operands are NaN. -/
def PF.pmax : PF → PF → PF
  | .nan, x => x
  | x, .nan => x
  | .pinf, _ => .pinf
  | _, .pinf => .pinf
  | .ninf, x => x
  | x, .ninf => x
  | .val a, .val b => .val (max a b)

/-- Series.fillna(0.0): replaces a NaN cell by 0 and leaves every other cell
unchanged (in particular an infinity is not replaced). -/
def PF.fillna0 : PF → PF
  | .nan => .val 0
  | x => x

/-- Series.sum() with the pandas default skipna semantics: NaN cells are
treated as 0. -/
def PF.psum (l : List PF) : PF :=
  l.foldr (fun x acc => (PF.fillna0 x).add acc) (PF.val 0)

/-- REDUCTIONS tuple of dom-sizing.ipynb. -/
def REDUCTIONS : List String := ["min", "max", "ave"]

/-- The three extent conventions named by REDUCTIONS, as an enumeration. -/
inductive Redux
  | min
  | max
  | ave
  deriving DecidableEq

/-- Column-name suffix of a reduction, matching the entries of REDUCTIONS. -/
def Redux.name : Redux → String
  | .min => "min"
  | .max => "max"
  | .ave => "ave"

/-- invert_redux of dom-sizing.ipynb: swaps the strings "min" and "max" and
returns any other argument unchanged. -/
def invert_redux (redux : String) : String :=
  if redux = "min" then "max"
  else if redux = "max" then "min"
  else redux

/-- Enumeration-level form of invert_redux used by the column pipeline below;
the theorem invert_name_coherent certifies that it agrees with the string
function invert_redux of the source on the three column-name suffixes. -/
def Redux.invert : Redux → Redux
  | .min => .max
  | .max => .min
  | .ave => .ave

/-- Modelled from the spec: the opposite(convention) helper described in the
spec's design notes, which swaps the min and max conventions and leaves the
average convention unchanged. -/
def opposite : Redux → Redux
  | .min => .max
  | .max => .min
  | .ave => .ave

/-- One bin of the reference table: the three derived extent cells
bin_extent_min, bin_extent_max, bin_extent_ave of a reference_df row. -/
structure Bin where
  emin : ℚ
  emax : ℚ
  eave : ℚ
  deriving DecidableEq

/-- Cell access bin_extent_<redux> of a bin. -/
def Bin.extent (b : Bin) : Redux → ℚ
  | .min => b.emin
  | .max => b.emax
  | .ave => b.eave

/-- Well-formedness facts enjoyed by every bin derived from a valid bin_size
index (see binsOfIndex_wf): nonnegative lower extent, ordered extents, upper
extent at least one byte, and the average extent is the midpoint. -/
abbrev WFBin (b : Bin) : Prop :=
  0 ≤ b.emin ∧ b.emin ≤ b.emax ∧ 1 ≤ b.emax ∧ b.eave = (b.emin + b.emax) / 2

/-- bin_extent_min column of dom-sizing.ipynb, from the bin_size index:
numpy.concatenate((numpy.array([0, 2]), index[1:-1] + 1)). -/
def binExtentMin (idx : List ℕ) : List ℚ :=
  0 :: 2 :: ((idx.drop 1).dropLast.map (fun v : ℕ => (v : ℚ) + 1))

/-- bin_extent_max column of dom-sizing.ipynb: the bin_size index itself. -/
def binExtentMax (idx : List ℕ) : List ℚ :=
  idx.map (fun v : ℕ => (v : ℚ))

/-- bin_extent_ave column of dom-sizing.ipynb: elementwise
(bin_extent_min + bin_extent_max) / 2. -/
def binExtentAve (idx : List ℕ) : List ℚ :=
  List.zipWith (fun a b => (a + b) / 2) (binExtentMin idx) (binExtentMax idx)

/-- Modelled from the spec: fsanalysis.histogram.histogram_dataframe, the
producer of the bin_size index, is not part of this repository snapshot.  Per
the spec the boundaries are a strictly monotonically increasing sequence of
bin upper bounds, canonically successive powers of two, starting from a value
that allows a valid lowest bin; with the hard-coded lowest extents [0, 2] of
the source that starting value is 2 ^ 0 = 1. -/
def validBinIndex (idx : List ℕ) : Prop :=
  idx.head? = some 1 ∧ idx.Chain' (· < ·)

/-- Bin rows as derived by dom-sizing.ipynb from the bin_size index. -/
def binsOfIndex (idx : List ℕ) : List Bin :=
  List.zipWith (fun p a => Bin.mk p.1 p.2 a)
    (List.zip (binExtentMin idx) (binExtentMax idx)) (binExtentAve idx)

/-- One reference_df row: a bin together with its num_files cell and the cell
of one (arbitrary) non-file inode type count column num_<itype>. -/
structure Row where
  bin : Bin
  nf : ℚ
  nt : ℚ
  deriving DecidableEq

/-- dmass_<redux> column of mass_dist:
(reference_df num_files * reference_df bin_extent_<redux>).fillna(0.0);
counts and extents are present in this model, so the fillna is the identity. -/
def massDist (h : List Row) (r : Redux) : List ℚ :=
  h.map (fun row => row.nf * row.bin.extent r)

/-- mass_dist_sums entry dmass_<redux>: the column sum of mass_dist. -/
def massDistSum (h : List Row) (r : Redux) : ℚ :=
  (massDist h r).sum

/-- prob_dist column dmass_<redux>: the mass column divided elementwise by the
mass sum of the inverted reduction (the cross-convention denominator),
computed in pandas float arithmetic. -/
def prob_dist (h : List Row) (r : Redux) : List PF :=
  (massDist h r).map (fun m => PF.div (.val m) (.val (massDistSum h r.invert)))

/-- new_mass_dist column dmass_<redux>: the probability column multiplied by
the target capacity TARGET_TOTAL_OST_CAPACITY (here the parameter T). -/
def new_mass_dist (h : List Row) (T : ℚ) (r : Redux) : List PF :=
  (prob_dist h r).map (fun p => p.mul (.val T))

/-- newfs_df columns num_files_min, num_files_max, num_files_ave: the new mass
column divided by bin_extent_max, by max(1, bin_extent_min), and by
bin_extent_ave respectively, each followed by fillna(0.0). -/
def num_files_new (h : List Row) (T : ℚ) : Redux → List PF
  | .min => List.zipWith (fun m row => (PF.div m (.val row.bin.emax)).fillna0)
      (new_mass_dist h T .min) h
  | .max => List.zipWith (fun m row => (PF.div m (.val (max 1 row.bin.emin))).fillna0)
      (new_mass_dist h T .max) h
  | .ave => List.zipWith (fun m row => (PF.div m (.val row.bin.eave)).fillna0)
      (new_mass_dist h T .ave) h

/-- newfs_df column num_<itype>_<redux> for a non-file inode type:
(newfs_df num_files_<redux> * reference_df num_<itype> /
 reference_df num_files).fillna(0.0). -/
def num_type_new (h : List Row) (T : ℚ) (r : Redux) : List PF :=
  List.zipWith (fun c row => (PF.div (c.mul (.val row.nt)) (.val row.nf)).fillna0)
    (num_files_new h T r) h

/-- Divisor used by newfs_df to invert a projected mass cell back into a file
count: bin_extent_max for the min bound, max(1, bin_extent_min) for the max
bound, bin_extent_ave for the average case (a verification-side name for the
three divisors appearing in the source lines building num_files_*). -/
def countDivisor (b : Bin) : Redux → ℚ
  | .min => b.emax
  | .max => max 1 b.emin
  | .ave => b.eave

/-- TO_KIB unit constant of dom-sizing.ipynb. -/
def TO_KIB : ℚ := (2 : ℚ) ^ (-10 : ℤ)

/-- LUSTRE_BYTES_PER_INODE of dom-sizing.ipynb: 4.0 / TO_KIB, i.e. 4 KiB. -/
def LUSTRE_BYTES_PER_INODE : ℚ := 4 / TO_KIB

/-- One input row of calculate_inode_mass: a bin together with the selected
num_files<suffix> cell and the selected num_<itype><suffix> cells of the
non-file inode types; a missing (NaN) cell is none. -/
structure NRow where
  bin : Bin
  nfiles : Option ℚ
  ntypes : List (Option ℚ)

/-- Interpretation of a possibly missing table cell as a pandas float. -/
def cellPF : Option ℚ → PF
  | none => PF.nan
  | some q => PF.val q

/-- Per-bin cell of the series ret built inside calculate_inode_mass: the file
inode term num_files * LUSTRE_BYTES_PER_INODE plus, for each non-file type in
order, the rowwise maximum of count * bin_extent_<redux> and
count * LUSTRE_BYTES_PER_INODE. -/
def inodeMassBin (row : NRow) (r : Redux) : PF :=
  row.ntypes.foldl
    (fun acc nt =>
      acc.add (PF.pmax ((cellPF nt).mul (.val (row.bin.extent r)))
                       ((cellPF nt).mul (.val LUSTRE_BYTES_PER_INODE))))
    ((cellPF row.nfiles).mul (.val LUSTRE_BYTES_PER_INODE))

/-- calculate_inode_mass of dom-sizing.ipynb: ret.fillna(0.0).sum(). -/
def calculate_inode_mass (rows : List NRow) (r : Redux) : PF :=
  PF.psum (rows.map (fun row => (inodeMassBin row r).fillna0))

/-- DWPD_NEW_LOW / DWPD_NEW_HIGH of ssd-endurance-requirements.ipynb as a
function of the parameters appearing in the source expression:
SSI * FSWPD * WAF * R_ref * N_ref * c_ref / (chi R N c)_new. -/
def DWPD_NEW (ssi fswpd waf r_ref n_ref c_ref bigc_new : ℚ) : ℚ :=
  ssi * fswpd * waf * r_ref * n_ref * c_ref / bigc_new

/-- Bin rows derived from the concrete bin_size index [1, 2, 4, 8]. -/
def bin0 : Bin := ⟨0, 1, 1 / 2⟩

/-- Second bin of the concrete index. -/
def bin1 : Bin := ⟨2, 2, 2⟩

/-- Third bin of the concrete index. -/
def bin2 : Bin := ⟨3, 4, 7 / 2⟩

/-- Fourth bin of the concrete index. -/
def bin3 : Bin := ⟨5, 8, 13 / 2⟩

/-- Concrete four-bin reference histogram used by witnesses and
counterexamples: one file of size at most 1, one file and three inodes of the
non-file type in the second bin, nothing above. -/
def h4 : List Row := [⟨bin0, 1, 0⟩, ⟨bin1, 1, 3⟩, ⟨bin2, 0, 0⟩, ⟨bin3, 0, 0⟩]

/-- Concrete empty reference population: the same bins with all counts zero. -/
def hEmpty : List Row := [⟨bin0, 0, 0⟩, ⟨bin1, 0, 0⟩, ⟨bin2, 0, 0⟩, ⟨bin3, 0, 0⟩]

/-- Concrete input rows for calculate_inode_mass with all cells present. -/
def n4 : List NRow :=
  [⟨bin0, some 2, [some 1, some 0]⟩, ⟨bin1, some 3, [some 5000, some 1]⟩]

theorem getD_of_lt {α : Type} (l : List α) (i : ℕ) (hi : i < l.length) (d : α) :
    l.getD i d = l.get ⟨i, hi⟩ := by
  rw [List.getD_eq_getElem?_getD, List.getElem?_eq_getElem hi]
  rfl

theorem getD_map {α β : Type} (f : α → β) (l : List α) (i : ℕ) (hi : i < l.length) (d : β) :
    (l.map f).getD i d = f (l.get ⟨i, hi⟩) := by
  rw [List.getD_eq_getElem?_getD, List.getElem?_map, List.getElem?_eq_getElem hi]
  rfl

theorem getD_zipWith {α β γ : Type} (f : α → β → γ) (as : List α) (bs : List β) (i : ℕ)
    (h1 : i < as.length) (h2 : i < bs.length) (d : γ) :
    (List.zipWith f as bs).getD i d = f (as.get ⟨i, h1⟩) (bs.get ⟨i, h2⟩) := by
  have hz : i < (List.zipWith f as bs).length := by
    rw [List.length_zipWith]; omega
  rw [getD_of_lt _ i hz]
  simp

/-- C10: invert_redux is an involution on every input string; it swaps "min"
and "max" and returns every other string unchanged, so the average convention
is a fixed point of the cross-denominator discipline. -/
theorem claim_C10 (r : String) :
    invert_redux (invert_redux r) = r ∧
    invert_redux "min" = "max" ∧ invert_redux "max" = "min" ∧
    (r ≠ "min" → r ≠ "max" → invert_redux r = r) := by
  refine ⟨?_, by decide, by decide, fun h1 h2 => by simp [invert_redux, h1, h2]⟩
  by_cases h1 : r = "min"
  · subst h1; decide
  · by_cases h2 : r = "max"
    · subst h2; decide
    · simp [invert_redux, h1, h2]

theorem claim_C10_witness :
    invert_redux (invert_redux "ave") = "ave" ∧
    invert_redux "min" = "max" ∧ invert_redux "max" = "min" ∧
    invert_redux "ave" = "ave" := by
  obtain ⟨h1, h2, h3, h4⟩ := claim_C10 "ave"
  exact ⟨h1, h2, h3, h4 (by decide) (by decide)⟩

/-- C9: the endurance computation is the product of the SSI multiplier, the
reference file-system-writes-per-day, the write amplification factor, and the
ratio of the reference aggregate R_ref * N_ref * c_ref to the new aggregate
capacity; at SSI = 3, FSWPD = 0.05, WAF = 2.5, reference aggregate 1000 and
new aggregate 4000 the result is exactly 0.09375. -/
theorem claim_C9 :
    (∀ ssi fswpd waf r n c bigc : ℚ,
        DWPD_NEW ssi fswpd waf r n c bigc = ssi * fswpd * waf * (r * n * c / bigc)) ∧
    DWPD_NEW 3 0.05 2.5 1000 1 1 4000 = 0.09375 := by
  constructor
  · intro ssi fswpd waf r n c bigc
    unfold DWPD_NEW
    ring
  · norm_num [DWPD_NEW]

theorem length_binExtentMin (idx : List ℕ) (h : 2 ≤ idx.length) :
    (binExtentMin idx).length = idx.length := by
  simp only [binExtentMin, List.length_cons, List.length_map, List.length_dropLast,
    List.length_drop]
  omega

theorem length_binExtentMax (idx : List ℕ) :
    (binExtentMax idx).length = idx.length := by
  simp [binExtentMax]

/-- C5: for every bin_size index accepted by the Bin Index (strictly
increasing boundaries starting at 1) with at least two bins, the derived
extent columns satisfy extent_min[0] = 0, extent_min[i] = extent_max[i-1] + 1
for every 0 < i < n, and extent_ave[i] = (extent_min[i] + extent_max[i]) / 2
for every i < n. -/
theorem claim_C5 (idx : List ℕ) (hv : validBinIndex idx) (hlen : 2 ≤ idx.length) :
    (binExtentMin idx).getD 0 0 = 0 ∧
    (∀ i, 0 < i → i < idx.length →
      (binExtentMin idx).getD i 0 = (binExtentMax idx).getD (i - 1) 0 + 1) ∧
    (∀ i, i < idx.length →
      (binExtentAve idx).getD i 0
        = ((binExtentMin idx).getD i 0 + (binExtentMax idx).getD i 0) / 2) := by
  obtain ⟨hhead, _hchain⟩ := hv
  obtain ⟨a, tail, rfl⟩ : ∃ a tail, idx = a :: tail := by
    cases idx with
    | nil => simp at hhead
    | cons a tail => exact ⟨a, tail, rfl⟩
  have ha : a = 1 := by simpa using hhead
  subst ha
  refine ⟨rfl, ?_, ?_⟩
  · intro i hpos hi
    match i, hpos with
    | 1, _ =>
      norm_num [binExtentMin, binExtentMax]
    | (k + 2), _ =>
      have hk : k < ((1 :: tail).drop 1).dropLast.length := by
        simp at hi ⊢
        omega
      have hk2 : k + 1 < (1 :: tail).length := by
        simp at hi ⊢
        omega
      have hk2' : k + 2 - 1 < (1 :: tail).length := by
        simp at hi ⊢
        omega
      rw [binExtentMin, List.getD_cons_succ, List.getD_cons_succ,
        getD_map _ _ k hk, binExtentMax, getD_map _ _ (k + 2 - 1) hk2']
      have hget : (((1 :: tail).drop 1).dropLast.get ⟨k, hk⟩ : ℕ)
          = (1 :: tail).get ⟨k + 1, hk2⟩ := by
        simp
      rw [hget]
      have hidx : k + 2 - 1 = k + 1 := by omega
      simp [hidx]
  · intro i hi
    have h1 : i < (binExtentMin (1 :: tail)).length := by
      rw [length_binExtentMin _ hlen]
      exact hi
    have h2 : i < (binExtentMax (1 :: tail)).length := by
      rw [length_binExtentMax]
      exact hi
    rw [binExtentAve, getD_zipWith _ _ _ i h1 h2, getD_of_lt _ i h1, getD_of_lt _ i h2]

theorem claim_C5_witness :
    validBinIndex [1, 2, 4, 8] ∧
    (binExtentMin [1, 2, 4, 8]).getD 0 0 = 0 ∧
    (binExtentMin [1, 2, 4, 8]).getD 2 0 = (binExtentMax [1, 2, 4, 8]).getD 1 0 + 1 ∧
    (binExtentAve [1, 2, 4, 8]).getD 3 0
      = ((binExtentMin [1, 2, 4, 8]).getD 3 0 + (binExtentMax [1, 2, 4, 8]).getD 3 0) / 2 := by
  have hv : validBinIndex [1, 2, 4, 8] := ⟨rfl, by norm_num [List.chain'_cons]⟩
  have h := claim_C5 [1, 2, 4, 8] hv (by norm_num)
  exact ⟨hv, h.1, h.2.1 2 (by norm_num) (by norm_num), h.2.2 3 (by norm_num)⟩

theorem invert_name_coherent (r : Redux) : (Redux.invert r).name = invert_redux r.name := by
  cases r <;> rfl

theorem PF.div_val_val {a b : ℚ} (hb : b ≠ 0) : PF.div (.val a) (.val b) = .val (a / b) := by
  simp [PF.div, hb]

theorem PF.div_val_zero_zero : PF.div (.val 0) (.val 0) = .nan := by
  simp [PF.div]

theorem PF.mul_val (a b : ℚ) : PF.mul (.val a) (.val b) = .val (a * b) := rfl

theorem PF.add_val (a b : ℚ) : PF.add (.val a) (.val b) = .val (a + b) := rfl

theorem PF.fillna0_val (a : ℚ) : PF.fillna0 (.val a) = .val a := rfl

theorem PF.pmax_val (a b : ℚ) : PF.pmax (.val a) (.val b) = .val (max a b) := rfl

theorem PF.psum_cons (x : PF) (l : List PF) :
    PF.psum (x :: l) = (PF.fillna0 x).add (PF.psum l) := rfl

theorem length_massDist (h : List Row) (r : Redux) : (massDist h r).length = h.length := by
  simp [massDist]

theorem length_prob_dist (h : List Row) (r : Redux) : (prob_dist h r).length = h.length := by
  simp [prob_dist, massDist]

theorem length_new_mass_dist (h : List Row) (T : ℚ) (r : Redux) :
    (new_mass_dist h T r).length = h.length := by
  simp [new_mass_dist, prob_dist, massDist]

theorem length_num_files_new (h : List Row) (T : ℚ) (r : Redux) :
    (num_files_new h T r).length = h.length := by
  cases r <;>
    simp [num_files_new, List.length_zipWith, length_new_mass_dist]

theorem massDist_get (h : List Row) (r : Redux) (i : ℕ) (hi : i < h.length)
    (hm : i < (massDist h r).length) :
    (massDist h r).get ⟨i, hm⟩ = (h.get ⟨i, hi⟩).nf * (h.get ⟨i, hi⟩).bin.extent r := by
  simp [massDist]

theorem prob_dist_getD (h : List Row) (r : Redux) (i : ℕ) (hi : i < h.length) :
    (prob_dist h r).getD i .nan
      = PF.div (.val ((h.get ⟨i, hi⟩).nf * (h.get ⟨i, hi⟩).bin.extent r))
          (.val (massDistSum h r.invert)) := by
  have hm : i < (massDist h r).length := by rw [length_massDist]; exact hi
  rw [prob_dist, getD_map _ _ i hm, massDist_get h r i hi hm]

theorem new_mass_dist_getD (h : List Row) (T : ℚ) (r : Redux) (i : ℕ) (hi : i < h.length) :
    (new_mass_dist h T r).getD i .nan
      = (PF.div (.val ((h.get ⟨i, hi⟩).nf * (h.get ⟨i, hi⟩).bin.extent r))
          (.val (massDistSum h r.invert))).mul (.val T) := by
  have hp : i < (prob_dist h r).length := by rw [length_prob_dist]; exact hi
  rw [new_mass_dist, getD_map _ _ i hp, ← getD_of_lt _ i hp, prob_dist_getD h r i hi]

theorem num_files_new_getD (h : List Row) (T : ℚ) (r : Redux) (i : ℕ) (hi : i < h.length) :
    (num_files_new h T r).getD i .nan
      = (PF.div ((new_mass_dist h T r).getD i .nan)
          (.val (countDivisor (h.get ⟨i, hi⟩).bin r))).fillna0 := by
  have hz : i < (new_mass_dist h T r).length := by rw [length_new_mass_dist]; exact hi
  cases r <;>
  · rw [num_files_new, getD_zipWith _ _ _ i hz hi, ← getD_of_lt _ i hz]
    rfl

theorem num_type_new_getD (h : List Row) (T : ℚ) (r : Redux) (i : ℕ) (hi : i < h.length) :
    (num_type_new h T r).getD i .nan
      = (PF.div (((num_files_new h T r).getD i .nan).mul (.val ((h.get ⟨i, hi⟩).nt)))
          (.val ((h.get ⟨i, hi⟩).nf))).fillna0 := by
  have hf : i < (num_files_new h T r).length := by rw [length_num_files_new]; exact hi
  rw [num_type_new, getD_zipWith _ _ _ i hf hi, ← getD_of_lt _ i hf]

theorem countDivisor_min (b : Bin) : countDivisor b .min = b.emax := rfl

theorem countDivisor_max (b : Bin) : countDivisor b .max = max 1 b.emin := rfl

theorem countDivisor_ave (b : Bin) : countDivisor b .ave = b.eave := rfl

theorem wf_emin_le_eave {b : Bin} (wf : WFBin b) : b.emin ≤ b.eave := by
  obtain ⟨h0, h1, h2, h3⟩ := wf
  rw [h3]
  linarith

theorem wf_eave_le_emax {b : Bin} (wf : WFBin b) : b.eave ≤ b.emax := by
  obtain ⟨h0, h1, h2, h3⟩ := wf
  rw [h3]
  linarith

theorem wf_eave_pos {b : Bin} (wf : WFBin b) : 0 < b.eave := by
  obtain ⟨h0, h1, h2, h3⟩ := wf
  rw [h3]
  linarith

theorem wf_emax_pos {b : Bin} (wf : WFBin b) : 0 < b.emax := by
  obtain ⟨h0, h1, h2, h3⟩ := wf
  linarith

theorem wf_extent_nonneg {b : Bin} (wf : WFBin b) (r : Redux) : 0 ≤ b.extent r := by
  obtain ⟨h0, h1, h2, h3⟩ := wf
  cases r
  · exact h0
  · show 0 ≤ b.emax
    linarith
  · show 0 ≤ b.eave
    rw [h3]
    linarith

theorem massDistSum_nonneg (h : List Row) (r : Redux)
    (hwf : ∀ row ∈ h, WFBin row.bin) (hnn : ∀ row ∈ h, 0 ≤ row.nf) :
    0 ≤ massDistSum h r := by
  apply List.sum_nonneg
  intro x hx
  rw [massDist] at hx
  obtain ⟨row, hrow, rfl⟩ := List.mem_map.mp hx
  exact mul_nonneg (hnn row hrow) (wf_extent_nonneg (hwf row hrow) r)

theorem massDistSum_mono (h : List Row)
    (hwf : ∀ row ∈ h, WFBin row.bin) (hnn : ∀ row ∈ h, 0 ≤ row.nf) :
    massDistSum h .min ≤ massDistSum h .ave ∧ massDistSum h .ave ≤ massDistSum h .max := by
  constructor
  · apply List.sum_le_sum
    intro row hrow
    exact mul_le_mul_of_nonneg_left (wf_emin_le_eave (hwf row hrow)) (hnn row hrow)
  · apply List.sum_le_sum
    intro row hrow
    exact mul_le_mul_of_nonneg_left (wf_eave_le_emax (hwf row hrow)) (hnn row hrow)

theorem psum_div_const (masses : List ℚ) (D : ℚ) (hD : D ≠ 0) :
    PF.psum (masses.map (fun m => PF.div (.val m) (.val D))) = .val (masses.sum / D) := by
  induction masses with
  | nil => simp [PF.psum]
  | cons m rest ih =>
    rw [List.map_cons, PF.psum_cons, ih, PF.div_val_val hD, PF.fillna0_val, PF.add_val,
      List.sum_cons, add_div]

/-- C1: each probability column is the corresponding mass column divided by
the total mass of the opposite convention, where opposite (which the source
implements as invert_redux) swaps min and max and fixes the average
convention; in particular the min column is divided by the max total mass,
the max column by the min total mass, and the average column by the average
total mass. -/
theorem claim_C1 (h : List Row) (r : Redux) (i : ℕ) (hi : i < h.length)
    (hd : massDistSum h (opposite r) ≠ 0) :
    (prob_dist h r).getD i .nan
      = .val ((h.get ⟨i, hi⟩).nf * (h.get ⟨i, hi⟩).bin.extent r
          / massDistSum h (opposite r)) ∧
    (∀ s : Redux, Redux.invert s = opposite s) := by
  have hinv : r.invert = opposite r := by cases r <;> rfl
  refine ⟨?_, fun s => by cases s <;> rfl⟩
  rw [prob_dist_getD h r i hi, hinv, PF.div_val_val hd]

theorem claim_C1_witness :
    massDistSum h4 (opposite .min) ≠ 0 ∧
    (prob_dist h4 .min).getD 1 .nan = .val (2 / 3) := by
  have hd : massDistSum h4 (opposite .min) ≠ 0 := by
    norm_num [massDistSum, massDist, h4, bin0, bin1, bin2, bin3, Bin.extent, opposite]
  refine ⟨hd, ?_⟩
  rw [(claim_C1 h4 .min 1 (by decide) hd).1]
  norm_num [massDistSum, massDist, h4, bin0, bin1, bin2, bin3, Bin.extent, opposite]

/-- C3 (amended): the average-convention probability column sums to exactly 1
whenever the average total mass is nonzero, but because of the
cross-convention denominators the min column sums to total_min / total_max
and the max column sums to total_max / total_min, which equal 1 only when the
min and max total masses coincide. -/
theorem claim_C3 (h : List Row)
    (hmin : massDistSum h .min ≠ 0) (hmax : massDistSum h .max ≠ 0)
    (hav : massDistSum h .ave ≠ 0) :
    PF.psum (prob_dist h .ave) = .val 1 ∧
    PF.psum (prob_dist h .min) = .val (massDistSum h .min / massDistSum h .max) ∧
    PF.psum (prob_dist h .max) = .val (massDistSum h .max / massDistSum h .min) := by
  refine ⟨?_, ?_, ?_⟩
  · have hinv : Redux.invert .ave = .ave := rfl
    rw [prob_dist, hinv, psum_div_const _ _ hav]
    rw [show (massDist h .ave).sum = massDistSum h .ave from rfl, div_self hav]
  · have hinv : Redux.invert .min = .max := rfl
    rw [prob_dist, hinv, psum_div_const _ _ hmax]
    rfl
  · have hinv : Redux.invert .max = .min := rfl
    rw [prob_dist, hinv, psum_div_const _ _ hmin]
    rfl

theorem claim_C3_counterexample :
    0 < massDistSum h4 .min ∧ 0 < massDistSum h4 .max ∧ 0 < massDistSum h4 .ave ∧
    PF.psum (prob_dist h4 .min) ≠ .val 1 := by
  refine ⟨?_, ?_, ?_, ?_⟩ <;>
    norm_num [massDistSum, massDist, h4, bin0, bin1, bin2, bin3, Bin.extent,
      prob_dist, Redux.invert, PF.psum, PF.div, PF.fillna0, PF.add]

theorem claim_C3_witness :
    (massDistSum h4 .min ≠ 0 ∧ massDistSum h4 .max ≠ 0 ∧ massDistSum h4 .ave ≠ 0) ∧
    PF.psum (prob_dist h4 .ave) = .val 1 ∧
    PF.psum (prob_dist h4 .min) = .val (massDistSum h4 .min / massDistSum h4 .max) := by
  have h1 : massDistSum h4 .min ≠ 0 := by
    norm_num [massDistSum, massDist, h4, bin0, bin1, bin2, bin3, Bin.extent]
  have h2 : massDistSum h4 .max ≠ 0 := by
    norm_num [massDistSum, massDist, h4, bin0, bin1, bin2, bin3, Bin.extent]
  have h3 : massDistSum h4 .ave ≠ 0 := by
    norm_num [massDistSum, massDist, h4, bin0, bin1, bin2, bin3, Bin.extent]
  obtain ⟨e1, e2, _⟩ := claim_C3 h4 h1 h2 h3
  exact ⟨⟨h1, h2, h3⟩, e1, e2⟩

/-- C4: rescaling is a round trip for the average convention: with the target
capacity equal to the reference total average mass, the projected average
file count of every bin equals the reference file count of that bin exactly
(the source computes in floating point, hence its tolerance proviso). -/
theorem claim_C4 (h : List Row) (i : ℕ) (hi : i < h.length)
    (hwf : ∀ row ∈ h, WFBin row.bin)
    (hpos : 0 < massDistSum h .ave) :
    (num_files_new h (massDistSum h .ave) .ave).getD i .nan
      = .val ((h.get ⟨i, hi⟩).nf) := by
  have hwfi := hwf _ (List.get_mem h i hi)
  have heave : (h.get ⟨i, hi⟩).bin.eave ≠ 0 := ne_of_gt (wf_eave_pos hwfi)
  have htave : massDistSum h .ave ≠ 0 := ne_of_gt hpos
  rw [num_files_new_getD h _ .ave i hi, new_mass_dist_getD h _ .ave i hi,
    countDivisor_ave]
  rw [show Redux.invert .ave = .ave from rfl, PF.div_val_val htave, PF.mul_val,
    PF.div_val_val heave, PF.fillna0_val]
  rw [show (h.get ⟨i, hi⟩).bin.extent .ave = (h.get ⟨i, hi⟩).bin.eave from rfl]
  congr 1
  rw [div_mul_cancel₀ _ htave, mul_div_cancel_right₀ _ heave]

theorem claim_C4_witness :
    (0 : ℚ) < massDistSum h4 .ave ∧
    (num_files_new h4 (massDistSum h4 .ave) .ave).getD 1 .nan = .val 1 := by
  have hpos : (0 : ℚ) < massDistSum h4 .ave := by
    norm_num [massDistSum, massDist, h4, bin0, bin1, bin2, bin3, Bin.extent]
  have hwf : ∀ row ∈ h4, WFBin row.bin := by
    norm_num [h4, bin0, bin1, bin2, bin3, WFBin]
  refine ⟨hpos, ?_⟩
  rw [claim_C4 h4 1 (by decide) hwf hpos]
  norm_num [h4, bin1]

/-- C2: for every bin of a reference histogram with well-formed bins,
nonnegative counts, positive minimum-convention total mass and a positive
target capacity, the three projected file-count cells are finite values
satisfying num_files_min <= num_files_ave <= num_files_max. -/
theorem claim_C2 (h : List Row) (T : ℚ) (i : ℕ) (hi : i < h.length)
    (hwf : ∀ row ∈ h, WFBin row.bin) (hnn : ∀ row ∈ h, 0 ≤ row.nf)
    (hmin : 0 < massDistSum h .min) (hT : 0 < T) :
    ∃ a b c : ℚ,
      (num_files_new h T .min).getD i .nan = .val a ∧
      (num_files_new h T .ave).getD i .nan = .val b ∧
      (num_files_new h T .max).getD i .nan = .val c ∧
      a ≤ b ∧ b ≤ c := by
  have hmem := List.get_mem h i hi
  have wfi := hwf _ hmem
  have nfi := hnn _ hmem
  obtain ⟨he0, he1, he2, he3⟩ := wfi
  have mono := massDistSum_mono h hwf hnn
  have htave : 0 < massDistSum h .ave := lt_of_lt_of_le hmin mono.1
  have htmax : 0 < massDistSum h .max := lt_of_lt_of_le htave mono.2
  have heave : 0 < (h.get ⟨i, hi⟩).bin.eave := wf_eave_pos ⟨he0, he1, he2, he3⟩
  have hemax : 0 < (h.get ⟨i, hi⟩).bin.emax := wf_emax_pos ⟨he0, he1, he2, he3⟩
  have hmaxe : 0 < max 1 (h.get ⟨i, hi⟩).bin.emin :=
    lt_of_lt_of_le one_pos (le_max_left 1 _)
  refine ⟨(h.get ⟨i, hi⟩).nf * (h.get ⟨i, hi⟩).bin.emin * T
            / (massDistSum h .max * (h.get ⟨i, hi⟩).bin.emax),
          (h.get ⟨i, hi⟩).nf * (h.get ⟨i, hi⟩).bin.eave * T
            / (massDistSum h .ave * (h.get ⟨i, hi⟩).bin.eave),
          (h.get ⟨i, hi⟩).nf * (h.get ⟨i, hi⟩).bin.emax * T
            / (massDistSum h .min * max 1 (h.get ⟨i, hi⟩).bin.emin),
          ?_, ?_, ?_, ?_, ?_⟩
  · rw [num_files_new_getD h T .min i hi, new_mass_dist_getD h T .min i hi,
      countDivisor_min, show Redux.invert .min = .max from rfl,
      show (h.get ⟨i, hi⟩).bin.extent .min = (h.get ⟨i, hi⟩).bin.emin from rfl,
      PF.div_val_val (ne_of_gt htmax), PF.mul_val, PF.div_val_val (ne_of_gt hemax),
      PF.fillna0_val]
    congr 1
    rw [div_mul_eq_mul_div, div_div]
  · rw [num_files_new_getD h T .ave i hi, new_mass_dist_getD h T .ave i hi,
      countDivisor_ave, show Redux.invert .ave = .ave from rfl,
      show (h.get ⟨i, hi⟩).bin.extent .ave = (h.get ⟨i, hi⟩).bin.eave from rfl,
      PF.div_val_val (ne_of_gt htave), PF.mul_val, PF.div_val_val (ne_of_gt heave),
      PF.fillna0_val]
    congr 1
    rw [div_mul_eq_mul_div, div_div]
  · rw [num_files_new_getD h T .max i hi, new_mass_dist_getD h T .max i hi,
      countDivisor_max, show Redux.invert .max = .min from rfl,
      show (h.get ⟨i, hi⟩).bin.extent .max = (h.get ⟨i, hi⟩).bin.emax from rfl,
      PF.div_val_val (ne_of_gt hmin), PF.mul_val, PF.div_val_val (ne_of_gt hmaxe),
      PF.fillna0_val]
    congr 1
    rw [div_mul_eq_mul_div, div_div]
  · rw [div_le_div_iff₀ (mul_pos htmax hemax) (mul_pos htave heave)]
    have hkey : (h.get ⟨i, hi⟩).bin.emin * (massDistSum h .ave * (h.get ⟨i, hi⟩).bin.eave)
        ≤ (h.get ⟨i, hi⟩).bin.eave * (massDistSum h .max * (h.get ⟨i, hi⟩).bin.emax) := by
      have step1 : (h.get ⟨i, hi⟩).bin.emin * (massDistSum h .ave * (h.get ⟨i, hi⟩).bin.eave)
          ≤ (h.get ⟨i, hi⟩).bin.eave * (massDistSum h .ave * (h.get ⟨i, hi⟩).bin.eave) :=
        mul_le_mul_of_nonneg_right (wf_emin_le_eave ⟨he0, he1, he2, he3⟩)
          (mul_nonneg htave.le heave.le)
      have step2 : massDistSum h .ave * (h.get ⟨i, hi⟩).bin.eave
          ≤ massDistSum h .max * (h.get ⟨i, hi⟩).bin.emax :=
        mul_le_mul mono.2 (wf_eave_le_emax ⟨he0, he1, he2, he3⟩) heave.le htmax.le
      exact step1.trans (mul_le_mul_of_nonneg_left step2 heave.le)
    calc (h.get ⟨i, hi⟩).nf * (h.get ⟨i, hi⟩).bin.emin * T
          * (massDistSum h .ave * (h.get ⟨i, hi⟩).bin.eave)
        = ((h.get ⟨i, hi⟩).nf * T)
            * ((h.get ⟨i, hi⟩).bin.emin * (massDistSum h .ave * (h.get ⟨i, hi⟩).bin.eave)) := by
          ring
      _ ≤ ((h.get ⟨i, hi⟩).nf * T)
            * ((h.get ⟨i, hi⟩).bin.eave * (massDistSum h .max * (h.get ⟨i, hi⟩).bin.emax)) :=
          mul_le_mul_of_nonneg_left hkey (mul_nonneg nfi hT.le)
      _ = (h.get ⟨i, hi⟩).nf * (h.get ⟨i, hi⟩).bin.eave * T
            * (massDistSum h .max * (h.get ⟨i, hi⟩).bin.emax) := by
          ring
  · rw [div_le_div_iff₀ (mul_pos htave heave) (mul_pos hmin hmaxe)]
    have hmaxe_le : max 1 (h.get ⟨i, hi⟩).bin.emin ≤ (h.get ⟨i, hi⟩).bin.emax :=
      max_le he2 he1
    have hkey : massDistSum h .min * max 1 (h.get ⟨i, hi⟩).bin.emin
        ≤ massDistSum h .ave * (h.get ⟨i, hi⟩).bin.emax :=
      mul_le_mul mono.1 hmaxe_le hmaxe.le htave.le
    calc (h.get ⟨i, hi⟩).nf * (h.get ⟨i, hi⟩).bin.eave * T
          * (massDistSum h .min * max 1 (h.get ⟨i, hi⟩).bin.emin)
        = ((h.get ⟨i, hi⟩).nf * T * (h.get ⟨i, hi⟩).bin.eave)
            * (massDistSum h .min * max 1 (h.get ⟨i, hi⟩).bin.emin) := by
          ring
      _ ≤ ((h.get ⟨i, hi⟩).nf * T * (h.get ⟨i, hi⟩).bin.eave)
            * (massDistSum h .ave * (h.get ⟨i, hi⟩).bin.emax) :=
          mul_le_mul_of_nonneg_left hkey
            (mul_nonneg (mul_nonneg nfi hT.le) heave.le)
      _ = (h.get ⟨i, hi⟩).nf * (h.get ⟨i, hi⟩).bin.emax * T
            * (massDistSum h .ave * (h.get ⟨i, hi⟩).bin.eave) := by
          ring

theorem claim_C2_witness :
    ((∀ row ∈ h4, WFBin row.bin) ∧ (∀ row ∈ h4, 0 ≤ row.nf) ∧
      0 < massDistSum h4 .min ∧ (0 : ℚ) < 100) ∧
    (∃ a b c : ℚ,
      (num_files_new h4 100 .min).getD 1 .nan = .val a ∧
      (num_files_new h4 100 .ave).getD 1 .nan = .val b ∧
      (num_files_new h4 100 .max).getD 1 .nan = .val c ∧
      a ≤ b ∧ b ≤ c) := by
  have hwf : ∀ row ∈ h4, WFBin row.bin := by
    norm_num [h4, bin0, bin1, bin2, bin3, WFBin]
  have hnn : ∀ row ∈ h4, 0 ≤ row.nf := by
    norm_num [h4]
  have hmin : 0 < massDistSum h4 .min := by
    norm_num [massDistSum, massDist, h4, bin0, bin1, bin2, bin3, Bin.extent]
  exact ⟨⟨hwf, hnn, hmin, by norm_num⟩,
    claim_C2 h4 100 1 (by decide) hwf hnn hmin (by norm_num)⟩

theorem massDistSum_of_counts_zero (h : List Row) (r : Redux)
    (he : ∀ row ∈ h, row.nf = 0) : massDistSum h r = 0 := by
  show (massDist h r).sum = 0
  apply List.sum_eq_zero
  intro x hx
  rw [massDist] at hx
  obtain ⟨row, hrow, rfl⟩ := List.mem_map.mp hx
  rw [he row hrow, zero_mul]

/-- C6 (amended): the probability computation signals no error: on an empty
reference population (all file counts zero) every probability cell is the NaN
produced by 0/0 and the downstream fillna(0.0) silently turns the projected
file counts into 0; a zero-count bin within a population whose denominator
total mass is nonzero yields probability 0, not an error. -/
theorem claim_C6 :
    (∀ (h : List Row) (r : Redux) (T : ℚ) (i : ℕ),
      (∀ row ∈ h, row.nf = 0) → i < h.length →
      (prob_dist h r).getD i .nan = .nan ∧
      (num_files_new h T r).getD i .nan = .val 0) ∧
    (∀ (h : List Row) (r : Redux) (i : ℕ) (hi : i < h.length),
      massDistSum h r.invert ≠ 0 → (h.get ⟨i, hi⟩).nf = 0 →
      (prob_dist h r).getD i .nan = .val 0) := by
  constructor
  · intro h r T i he hi
    have hz : massDistSum h r.invert = 0 := massDistSum_of_counts_zero h r.invert he
    have hnf : (h.get ⟨i, hi⟩).nf = 0 := he _ (List.get_mem h i hi)
    constructor
    · rw [prob_dist_getD h r i hi, hnf, hz, zero_mul, PF.div_val_zero_zero]
    · rw [num_files_new_getD h T r i hi, new_mass_dist_getD h T r i hi, hnf, hz,
        zero_mul, PF.div_val_zero_zero]
      rfl
  · intro h r i hi hd hnf
    rw [prob_dist_getD h r i hi, hnf, zero_mul, PF.div_val_val hd, zero_div]

theorem claim_C6_counterexample :
    (∀ row ∈ hEmpty, row.nf = 0) ∧
    prob_dist hEmpty .ave = [.nan, .nan, .nan, .nan] := by
  constructor
  · norm_num [hEmpty]
  · norm_num [prob_dist, massDist, massDistSum, hEmpty, bin0, bin1, bin2, bin3,
      Bin.extent, Redux.invert, PF.div]

theorem claim_C6_witness :
    (prob_dist hEmpty .min).getD 0 .nan = .nan ∧
    (num_files_new hEmpty 100 .min).getD 0 .nan = .val 0 ∧
    (prob_dist h4 .min).getD 2 .nan = .val 0 := by
  have he : ∀ row ∈ hEmpty, row.nf = 0 := by norm_num [hEmpty]
  obtain ⟨p1, p2⟩ := claim_C6.1 hEmpty .min 100 0 he (by decide)
  have hd : massDistSum h4 (Redux.invert .min) ≠ 0 := by
    norm_num [Redux.invert, massDistSum, massDist, h4, bin0, bin1, bin2, bin3, Bin.extent]
  have hnf : (h4.get ⟨2, by decide⟩).nf = 0 := by norm_num [h4]
  exact ⟨p1, p2, claim_C6.2 h4 .min 2 (by decide) hd hnf⟩

/-- C7: for every non-file inode type, bin and convention (under well-formed
bins, nonnegative counts and positive minimum total mass), the projected type
count cell equals the projected file count times the reference ratio
num_<itype> / num_files of that bin, and a zero reference file count in a bin
yields exactly the value 0 for that type in that bin (the 0/0 NaN is replaced
by fillna(0.0)), never an undefined, NaN or infinite cell. -/
theorem claim_C7 (h : List Row) (T : ℚ) (r : Redux) (i : ℕ) (hi : i < h.length)
    (hwf : ∀ row ∈ h, WFBin row.bin) (hnn : ∀ row ∈ h, 0 ≤ row.nf)
    (hmin : 0 < massDistSum h .min) :
    ((h.get ⟨i, hi⟩).nf = 0 → (num_type_new h T r).getD i .nan = .val 0) ∧
    ((h.get ⟨i, hi⟩).nf ≠ 0 → ∃ c : ℚ,
      (num_files_new h T r).getD i .nan = .val c ∧
      (num_type_new h T r).getD i .nan
        = .val (c * (h.get ⟨i, hi⟩).nt / (h.get ⟨i, hi⟩).nf)) := by
  have hmem := List.get_mem h i hi
  obtain ⟨he0, he1, he2, he3⟩ := hwf _ hmem
  have mono := massDistSum_mono h hwf hnn
  have htave : 0 < massDistSum h .ave := lt_of_lt_of_le hmin mono.1
  have htmax : 0 < massDistSum h .max := lt_of_lt_of_le htave mono.2
  have hdenom : massDistSum h r.invert ≠ 0 := by
    cases r
    · exact ne_of_gt htmax
    · exact ne_of_gt hmin
    · exact ne_of_gt htave
  have hdivisor : countDivisor (h.get ⟨i, hi⟩).bin r ≠ 0 := by
    cases r
    · exact ne_of_gt (wf_emax_pos ⟨he0, he1, he2, he3⟩)
    · exact ne_of_gt (lt_of_lt_of_le one_pos (le_max_left 1 _))
    · exact ne_of_gt (wf_eave_pos ⟨he0, he1, he2, he3⟩)
  have hfile : (num_files_new h T r).getD i .nan
      = .val ((h.get ⟨i, hi⟩).nf * (h.get ⟨i, hi⟩).bin.extent r
          / massDistSum h r.invert * T
          / countDivisor (h.get ⟨i, hi⟩).bin r) := by
    rw [num_files_new_getD h T r i hi, new_mass_dist_getD h T r i hi,
      PF.div_val_val hdenom, PF.mul_val, PF.div_val_val hdivisor, PF.fillna0_val]
  constructor
  · intro h0
    rw [num_type_new_getD h T r i hi, hfile, h0, PF.mul_val]
    simp only [zero_mul, zero_div]
    rw [PF.div_val_zero_zero]
    rfl
  · intro h0
    refine ⟨_, hfile, ?_⟩
    rw [num_type_new_getD h T r i hi, hfile, PF.mul_val, PF.div_val_val h0,
      PF.fillna0_val]

theorem claim_C7_witness :
    ((h4.get ⟨2, by decide⟩).nf = 0 ∧ (num_type_new h4 100 .ave).getD 2 .nan = .val 0) ∧
    (∃ c : ℚ,
      (num_files_new h4 100 .ave).getD 1 .nan = .val c ∧
      (num_type_new h4 100 .ave).getD 1 .nan
        = .val (c * (h4.get ⟨1, by decide⟩).nt / (h4.get ⟨1, by decide⟩).nf)) := by
  have hwf : ∀ row ∈ h4, WFBin row.bin := by
    norm_num [h4, bin0, bin1, bin2, bin3, WFBin]
  have hnn : ∀ row ∈ h4, 0 ≤ row.nf := by
    norm_num [h4]
  have hmin : 0 < massDistSum h4 .min := by
    norm_num [massDistSum, massDist, h4, bin0, bin1, bin2, bin3, Bin.extent]
  have hnf2 : (h4.get ⟨2, by decide⟩).nf = 0 := by norm_num [h4]
  have hnf1 : (h4.get ⟨1, by decide⟩).nf ≠ 0 := by norm_num [h4]
  exact ⟨⟨hnf2, (claim_C7 h4 100 .ave 2 (by decide) hwf hnn hmin).1 hnf2⟩,
    (claim_C7 h4 100 .ave 1 (by decide) hwf hnn hmin).2 hnf1⟩

theorem LBPI_eq : LUSTRE_BYTES_PER_INODE = 4096 := by
  norm_num [LUSTRE_BYTES_PER_INODE, TO_KIB]

theorem inode_foldl_val (r : Redux) (b : Bin) (nts : List (Option ℚ)) :
    ∀ acc : ℚ, (∀ c ∈ nts, c.isSome) →
      nts.foldl
        (fun acc2 nt =>
          acc2.add (PF.pmax ((cellPF nt).mul (.val (b.extent r)))
                            ((cellPF nt).mul (.val LUSTRE_BYTES_PER_INODE))))
        (PF.val acc)
      = .val (acc + (nts.map (fun c => max (c.getD 0 * b.extent r)
          (c.getD 0 * LUSTRE_BYTES_PER_INODE))).sum) := by
  induction nts with
  | nil =>
    intro acc _
    simp
  | cons c rest ih =>
    intro acc hts
    obtain ⟨q, rfl⟩ := Option.isSome_iff_exists.mp (hts c (List.mem_cons_self c rest))
    rw [List.foldl_cons]
    have hstep : (PF.val acc).add (PF.pmax ((cellPF (some q)).mul (.val (b.extent r)))
        ((cellPF (some q)).mul (.val LUSTRE_BYTES_PER_INODE)))
        = PF.val (acc + max (q * b.extent r) (q * LUSTRE_BYTES_PER_INODE)) := rfl
    rw [hstep, ih _ (fun c2 hc => hts c2 (List.mem_cons_of_mem _ hc)),
      List.map_cons, List.sum_cons, Option.getD_some]
    congr 1
    ring

/-- C8: for input rows with all cells present, calculate_inode_mass is the sum
over bins of the file term num_files * LUSTRE_BYTES_PER_INODE plus, for every
non-file type, the bin-level aggregate maximum of count * bin_extent_<redux>
and count * LUSTRE_BYTES_PER_INODE — the floor comparison is made between
whole-bin aggregates, not per inode; the trailing ret.fillna(0.0).sum()
treats missing cells of the per-bin series as zero. -/
theorem claim_C8 (rows : List NRow) (r : Redux)
    (hp : ∀ row ∈ rows, row.nfiles.isSome ∧ ∀ c ∈ row.ntypes, c.isSome) :
    calculate_inode_mass rows r
      = .val ((rows.map (fun row =>
          row.nfiles.getD 0 * LUSTRE_BYTES_PER_INODE
          + (row.ntypes.map (fun c => max (c.getD 0 * row.bin.extent r)
              (c.getD 0 * LUSTRE_BYTES_PER_INODE))).sum)).sum) := by
  revert hp
  induction rows with
  | nil =>
    intro _
    rfl
  | cons row rest ih =>
    intro hp
    obtain ⟨hnf, hnt⟩ := hp row (List.mem_cons_self row rest)
    obtain ⟨nf, hq⟩ := Option.isSome_iff_exists.mp hnf
    have hbin : inodeMassBin row r
        = .val (nf * LUSTRE_BYTES_PER_INODE + (row.ntypes.map (fun c =>
            max (c.getD 0 * row.bin.extent r)
              (c.getD 0 * LUSTRE_BYTES_PER_INODE))).sum) := by
      rw [inodeMassBin, hq]
      exact inode_foldl_val r row.bin row.ntypes (nf * LUSTRE_BYTES_PER_INODE) hnt
    have hrest := ih (fun row2 hr => hp row2 (List.mem_cons_of_mem _ hr))
    rw [calculate_inode_mass] at hrest
    rw [calculate_inode_mass, List.map_cons, PF.psum_cons, hbin, hrest,
      List.map_cons, List.sum_cons, hq, Option.getD_some]
    rfl

theorem claim_C8_witness :
    (∀ row ∈ n4, row.nfiles.isSome ∧ ∀ c ∈ row.ntypes, c.isSome) ∧
    calculate_inode_mass n4 .min = .val 20508672 := by
  have hp : ∀ row ∈ n4, row.nfiles.isSome ∧ ∀ c ∈ row.ntypes, c.isSome := by
    decide
  refine ⟨hp, ?_⟩
  rw [claim_C8 n4 .min hp]
  norm_num [n4, bin0, bin1, Bin.extent, LBPI_eq]

theorem binsOfIndex_wf (idx : List ℕ) (hv : validBinIndex idx) (hlen : 2 ≤ idx.length) :
    ∀ b ∈ binsOfIndex idx, WFBin b := by
  obtain ⟨hhead, hchain⟩ := hv
  obtain ⟨a, tail, rfl⟩ : ∃ a tail, idx = a :: tail := by
    cases idx with
    | nil => simp at hhead
    | cons a tail => exact ⟨a, tail, rfl⟩
  have ha : a = 1 := by simpa using hhead
  subst ha
  have hadj := List.chain'_iff_get.mp hchain
  have h1le : ∀ (j : ℕ) (hj : j < (1 :: tail).length), 1 ≤ (1 :: tail).get ⟨j, hj⟩ := by
    have hpw : List.Pairwise (· < ·) (1 :: tail) := List.chain'_iff_pairwise.mp hchain
    intro j hj
    cases j with
    | zero => exact le_refl 1
    | succ k =>
      exact le_of_lt ((List.pairwise_cons.mp hpw).1 _
        (List.get_mem tail k (by simpa using hj)))
  intro b hb
  rw [binsOfIndex] at hb
  obtain ⟨i, hilen, rfl⟩ := List.mem_iff_getElem.mp hb
  have hin : i < (1 :: tail).length := by
    have h1 := List.lt_length_left_of_zipWith hilen
    rw [List.length_zip, length_binExtentMin _ hlen, length_binExtentMax] at h1
    omega
  have him : i < (binExtentMin (1 :: tail)).length := by
    rw [length_binExtentMin _ hlen]; exact hin
  have hix : i < (binExtentMax (1 :: tail)).length := by
    rw [length_binExtentMax]; exact hin
  have hia : i < (binExtentAve (1 :: tail)).length := by
    rw [binExtentAve, List.length_zipWith, length_binExtentMin _ hlen, length_binExtentMax]
    omega
  have helem : (List.zipWith (fun p a => Bin.mk p.1 p.2 a)
      (List.zip (binExtentMin (1 :: tail)) (binExtentMax (1 :: tail)))
      (binExtentAve (1 :: tail))).get ⟨i, hilen⟩
      = Bin.mk ((binExtentMin (1 :: tail)).get ⟨i, him⟩)
          ((binExtentMax (1 :: tail)).get ⟨i, hix⟩)
          ((binExtentAve (1 :: tail)).get ⟨i, hia⟩) := by
    simp [List.getElem_zipWith, List.getElem_zip]
  simp only [List.get_eq_getElem] at helem
  rw [helem]
  have hmx_val : ∀ (j : ℕ) (hjx : j < (binExtentMax (1 :: tail)).length)
      (hj : j < (1 :: tail).length),
      (binExtentMax (1 :: tail)).get ⟨j, hjx⟩ = ((1 :: tail).get ⟨j, hj⟩ : ℚ) := by
    intro j hjx hj
    simp only [binExtentMax, List.get_eq_getElem, List.getElem_map]
  have hav_val : (binExtentAve (1 :: tail)).get ⟨i, hia⟩
      = ((binExtentMin (1 :: tail)).get ⟨i, him⟩
          + (binExtentMax (1 :: tail)).get ⟨i, hix⟩) / 2 := by
    simp [binExtentAve, List.getElem_zipWith]
  have hmn_val : ∀ (k : ℕ) (hm : k + 2 < (binExtentMin (1 :: tail)).length)
      (hk2 : k + 1 < (1 :: tail).length),
      (binExtentMin (1 :: tail)).get ⟨k + 2, hm⟩
        = ((1 :: tail).get ⟨k + 1, hk2⟩ : ℚ) + 1 := by
    intro k hm hk2
    have hk : k < ((1 :: tail).drop 1).dropLast.length := by
      rw [length_binExtentMin _ hlen] at hm
      simp at hm ⊢
      omega
    have hk' : k < (((1 :: tail).drop 1).dropLast.map (fun v : ℕ => (v : ℚ) + 1)).length := by
      simpa using hk
    show (((1 :: tail).drop 1).dropLast.map (fun v : ℕ => (v : ℚ) + 1)).get ⟨k, hk'⟩
      = ((1 :: tail).get ⟨k + 1, hk2⟩ : ℚ) + 1
    have hg : (((1 :: tail).drop 1).dropLast.get ⟨k, hk⟩ : ℕ)
        = (1 :: tail).get ⟨k + 1, hk2⟩ := by
      simp
    simp only [List.get_eq_getElem] at hg
    simp [hg]
  refine ⟨?_, ?_, ?_, ?_⟩
  · show 0 ≤ (binExtentMin (1 :: tail)).get ⟨i, him⟩
    match i, him with
    | 0, _ => norm_num [binExtentMin]
    | 1, _ => norm_num [binExtentMin]
    | (k + 2), hm =>
      rw [hmn_val k hm (by simp at hin ⊢; omega)]
      positivity
  · show (binExtentMin (1 :: tail)).get ⟨i, him⟩ ≤ (binExtentMax (1 :: tail)).get ⟨i, hix⟩
    match i, him, hix with
    | 0, _, hx =>
      rw [hmx_val 0 hx hin]
      norm_num [binExtentMin]
    | 1, _, hx =>
      rw [hmx_val 1 hx hin]
      have h01 : (1 :: tail).get ⟨0, by simp⟩ < (1 :: tail).get ⟨1, hin⟩ :=
        hadj 0 (by simp at hin ⊢; omega)
      have h2 : 2 ≤ (1 :: tail).get ⟨1, hin⟩ := h01
      norm_num [binExtentMin]
      exact_mod_cast h2
    | (k + 2), hm, hx =>
      have hk1 : k + 1 < (1 :: tail).length := by simp at hin ⊢; omega
      rw [hmn_val k hm hk1, hmx_val (k + 2) hx hin]
      have hlt : (1 :: tail).get ⟨k + 1, hk1⟩ < (1 :: tail).get ⟨k + 2, hin⟩ :=
        hadj (k + 1) (by simp at hin ⊢; omega)
      have hsucc : (1 :: tail).get ⟨k + 1, hk1⟩ + 1 ≤ (1 :: tail).get ⟨k + 2, hin⟩ := hlt
      exact_mod_cast hsucc
  · show 1 ≤ (binExtentMax (1 :: tail)).get ⟨i, hix⟩
    rw [hmx_val i hix hin]
    exact_mod_cast h1le i hin
  · show (binExtentAve (1 :: tail)).get ⟨i, hia⟩
      = ((binExtentMin (1 :: tail)).get ⟨i, him⟩
          + (binExtentMax (1 :: tail)).get ⟨i, hix⟩) / 2
    exact hav_val
